import Mathlib

/-!
Verification of the stratified sampler (`eval/sample.py`).

The development embeds the sampler's core pipeline — stratum key
construction, difficulty derivation, proportional allocation by the
largest-remainder method, seeded per-stratum draws and the final seeded
shuffle — as executable Lean definitions, and proves the specified
properties about them.
-/

/-- A dataset record, with the fields the sampler reads. -/
structure Item where
  instance_id : String
  repo : String
  difficulty : String
  patch : String
deriving DecidableEq, Repr

/-- `compute_strata`: the stratum key of an item, `repo + " | " + difficulty`. -/
def stratumOf (it : Item) : String :=
  it.repo ++ " | " ++ it.difficulty

/-- The stratum key built from a (source-group, difficulty) label pair,
as in `compute_strata`: the two labels joined by `" | "`. -/
def stratumKey (repo difficulty : String) : String :=
  repo ++ " | " ++ difficulty

/-- `normalize_difficulty` fallback: the number of newline characters in
the gold patch (`df["patch"].str.count("\n")`). -/
def countNewlines (patch : String) : Nat :=
  patch.data.count '\n'

/-- `normalize_difficulty` fallback tiers:
`"easy" if n < 50 else ("medium" if n < 150 else "hard")`. -/
def deriveDifficulty (patchLines : Nat) : String :=
  if patchLines < 50 then "easy" else if patchLines < 150 then "medium" else "hard"

/-- The difficulty label an item receives when the dataset has no
explicit difficulty field: the tier of its patch's newline count. -/
def fallbackDifficulty (patch : String) : String :=
  deriveDifficulty (countNewlines patch)

/-- Distinct elements of a list in order of first appearance (the key
order underlying `value_counts()` before its sort by count). Fuel-based
so that it reduces by `decide`; the fuel is the list length. -/
def dedupFirstAux : Nat → List String → List String
  | 0, _ => []
  | _, [] => []
  | fuel+1, a :: l => a :: dedupFirstAux fuel (l.filter (fun b => ¬ b = a))

/-- Distinct elements of a list, first-appearance order. -/
def dedupFirst (l : List String) : List String :=
  dedupFirstAux l.length l

/-- Ordering used by `value_counts()`: larger count first; Python/pandas
sorting is stable, so ties keep first-appearance order. -/
def countGe (a b : String × Nat) : Prop := b.2 ≤ a.2

instance : DecidableRel countGe := fun a b => Nat.decLe b.2 a.2

instance : IsTotal (String × Nat) countGe := ⟨fun a b => Nat.le_total b.2 a.2⟩

instance : IsTrans (String × Nat) countGe := ⟨fun _ _ _ h₁ h₂ => Nat.le_trans h₂ h₁⟩

/-- `df["stratum"].value_counts()`: each distinct stratum key with the
number of items carrying it, sorted by descending count (stable). -/
def strataCounts (df : List Item) : List (String × Nat) :=
  List.insertionSort countGe
    ((dedupFirst (df.map stratumOf)).map
      (fun k => (k, (df.filter (fun it => stratumOf it = k)).length)))

/-- `exact_allocs`: each stratum's exact proportional share
`(count / total) * n`, in `value_counts` order. -/
def exactAllocs (df : List Item) (n : Nat) : List (String × ℚ) :=
  (strataCounts df).map
    (fun p => (p.1, (p.2 : ℚ) / (df.length : ℚ) * (n : ℚ)))

/-- `allocated = sum(floor_allocs.values())` before remainder filling:
the sum of the floored shares (`int(v)` truncation, equal to the floor
for the nonnegative shares arising here). -/
def floorSum (df : List Item) (n : Nat) : Nat :=
  ((exactAllocs df n).map (fun p => (⌊p.2⌋).toNat)).sum

/-- `remainder = n - allocated`. -/
def remainderSlots (df : List Item) (n : Nat) : Nat :=
  n - floorSum df n

/-- Ordering of the largest-remainder ranking: larger fractional part
`x[1] - int(x[1])` first; Python's `sorted` is stable, so ties keep the
`value_counts` order. -/
def fractGe (a b : String × ℚ) : Prop := Int.fract b.2 ≤ Int.fract a.2

instance : DecidableRel fractGe := fun a b =>
  inferInstanceAs (Decidable (Int.fract b.2 ≤ Int.fract a.2))

instance : IsTotal (String × ℚ) fractGe := ⟨fun a b => le_total _ _⟩

instance : IsTrans (String × ℚ) fractGe := ⟨fun _ _ _ h₁ h₂ => le_trans h₂ h₁⟩

/-- `remainders`: the strata ranked by descending fractional remainder. -/
def remaindersRanked (df : List Item) (n : Nat) : List (String × ℚ) :=
  List.insertionSort fractGe (exactAllocs df n)

/-- The strata receiving one extra slot: `remainders[:remainder]`. -/
def extraKeys (df : List Item) (n : Nat) : List String :=
  ((remaindersRanked df n).take (remainderSlots df n)).map (fun p => p.1)

/-- The final integer count of one stratum: its floored share plus one
if it is among the top-remainder strata. -/
def allocWithExtra (df : List Item) (n : Nat) (p : String × ℚ) : Nat :=
  (⌊p.2⌋).toNat + (if p.1 ∈ extraKeys df n then 1 else 0)

/-- `floor_allocs` after remainder filling: stratum key ↦ final integer
count, in `value_counts` order (dict insertion order). -/
def floorAllocs (df : List Item) (n : Nat) : List (String × Nat) :=
  (exactAllocs df n).map (fun p => (p.1, allocWithExtra df n p))

/-- A linear congruential step; the deterministic pseudo-random source
standing in for the library's seeded generator. -/
def lcg (s : Nat) : Nat := (1103515245 * s + 12345) % 2147483648

/-- Seeded Fisher–Yates permutation, fuel-based so that it reduces by
`decide`. Models the library's seeded draws: `pool.sample(n=k,
random_state=seed)` is the first `k` entries of the seeded permutation
of the pool, and `sample(frac=1, random_state=seed)` is the full seeded
permutation. -/
def fyAux {α : Type} : Nat → Nat → List α → List α
  | 0, _, _ => []
  | _, _, [] => []
  | fuel+1, s, a :: t =>
      let i := s % (a :: t).length
      (a :: t).get ⟨i, Nat.mod_lt s (Nat.succ_pos t.length)⟩ ::
        fyAux fuel (lcg s) ((a :: t).eraseIdx i)

/-- The seeded permutation of a list. -/
def fisherYates {α : Type} (s : Nat) (l : List α) : List α :=
  fyAux l.length s l

/-- `stratified_sample`: allocate, draw `min(k, len(pool))` items from
each stratum with a nonzero count, concatenate, and shuffle with the
same seed. `pd.concat` of an empty list raises, modelled as `none`. -/
def stratified_sample (df : List Item) (n : Nat) (seed : Nat) : Option (List Item) :=
  let rows := (floorAllocs df n).filterMap (fun p =>
    if p.2 = 0 then none
    else
      let pool := df.filter (fun it => stratumOf it = p.1)
      some ((fisherYates seed pool).take (min p.2 pool.length)))
  if rows.isEmpty then none
  else some (fisherYates seed rows.flatten)

/-- The number of items the sampler actually returns: the allocation
with each stratum's count capped at the stratum's size. -/
def cappedSum (df : List Item) (n : Nat) : Nat :=
  ((floorAllocs df n).map
    (fun p => min p.2 ((df.filter (fun it => stratumOf it = p.1)).length))).sum

/-- `build_stats_report` line: `f"Sample size:   {n} problems"`, printed
from the requested sample size. -/
def sampleSizeLine (n : Nat) : String :=
  "Sample size:   " ++ toString n ++ " problems"

/-- `main`'s closing message: `f"\nSaved {args.n} problems → {out_path}"`,
printed from the requested sample size. -/
def savedMessage (n : Nat) (outPath : String) : String :=
  "\nSaved " ++ toString n ++ " problems → " ++ outPath


/-! ### Basic facts about the auxiliary functions -/

theorem mem_dedupFirstAux :
    ∀ (fuel : Nat) (l : List String), l.length ≤ fuel →
      ∀ a, (a ∈ dedupFirstAux fuel l ↔ a ∈ l) := by
  intro fuel
  induction fuel with
  | zero =>
    intro l hl a
    cases l with
    | nil => simp [dedupFirstAux]
    | cons b t => simp at hl
  | succ fuel ih =>
    intro l hl a
    cases l with
    | nil => simp [dedupFirstAux]
    | cons b t =>
      have hlen : (t.filter (fun x => ¬ x = b)).length ≤ fuel := by
        have := List.length_filter_le (fun x => decide (¬ x = b)) t
        simp only [List.length_cons, Nat.succ_le_succ_iff] at hl
        omega
      have hrec := ih (t.filter (fun x => ¬ x = b)) hlen a
      show a ∈ b :: dedupFirstAux fuel (t.filter (fun x => ¬ x = b)) ↔ a ∈ b :: t
      rw [List.mem_cons, List.mem_cons, hrec, List.mem_filter]
      by_cases hab : a = b <;> simp [hab]

theorem nodup_dedupFirstAux :
    ∀ (fuel : Nat) (l : List String), l.length ≤ fuel →
      (dedupFirstAux fuel l).Nodup := by
  intro fuel
  induction fuel with
  | zero =>
    intro l hl
    cases l with
    | nil => simp [dedupFirstAux]
    | cons b t => simp at hl
  | succ fuel ih =>
    intro l hl
    cases l with
    | nil => simp [dedupFirstAux]
    | cons b t =>
      have hlen : (t.filter (fun x => ¬ x = b)).length ≤ fuel := by
        have := List.length_filter_le (fun x => decide (¬ x = b)) t
        simp only [List.length_cons, Nat.succ_le_succ_iff] at hl
        omega
      show (b :: dedupFirstAux fuel (t.filter (fun x => ¬ x = b))).Nodup
      refine List.Nodup.cons ?_ (ih _ hlen)
      intro hb
      have hmem := (mem_dedupFirstAux fuel (t.filter (fun x => ¬ x = b)) hlen b).1 hb
      rw [List.mem_filter] at hmem
      simp at hmem

theorem mem_dedupFirst (l : List String) (a : String) :
    a ∈ dedupFirst l ↔ a ∈ l :=
  mem_dedupFirstAux l.length l le_rfl a

theorem nodup_dedupFirst (l : List String) : (dedupFirst l).Nodup :=
  nodup_dedupFirstAux l.length l le_rfl

theorem get_cons_eraseIdx_perm {α : Type} :
    ∀ (l : List α) (i : Nat) (h : i < l.length),
      (l.get ⟨i, h⟩ :: l.eraseIdx i).Perm l := by
  intro l
  induction l with
  | nil => intro i h; simp at h
  | cons a t ih =>
    intro i h
    cases i with
    | zero => simp
    | succ i =>
      have hi : i < t.length := by simpa using h
      have h1 : List.Perm (t.get ⟨i, hi⟩ :: a :: t.eraseIdx i)
          (a :: t.get ⟨i, hi⟩ :: t.eraseIdx i) := List.Perm.swap a _ _
      have h2 : List.Perm (a :: t.get ⟨i, hi⟩ :: t.eraseIdx i) (a :: t) :=
        List.Perm.cons a (ih i hi)
      exact h1.trans h2

theorem fyAux_perm {α : Type} :
    ∀ (fuel s : Nat) (l : List α), l.length ≤ fuel → (fyAux fuel s l).Perm l := by
  intro fuel
  induction fuel with
  | zero =>
    intro s l hl
    cases l with
    | nil => simp [fyAux]
    | cons a t => simp at hl
  | succ fuel ih =>
    intro s l hl
    cases l with
    | nil => simp [fyAux]
    | cons a t =>
      have hi : s % (a :: t).length < (a :: t).length :=
        Nat.mod_lt s (Nat.succ_pos t.length)
      have hlen : ((a :: t).eraseIdx (s % (a :: t).length)).length ≤ fuel := by
        rw [List.length_eraseIdx]
        simp only [if_pos hi]
        simp only [List.length_cons] at hl ⊢
        omega
      have hrec := ih (lcg s) ((a :: t).eraseIdx (s % (a :: t).length)) hlen
      show ((a :: t).get ⟨s % (a :: t).length, hi⟩ ::
        fyAux fuel (lcg s) ((a :: t).eraseIdx (s % (a :: t).length))).Perm (a :: t)
      exact (List.Perm.cons _ hrec).trans (get_cons_eraseIdx_perm _ _ hi)

theorem fisherYates_perm {α : Type} (s : Nat) (l : List α) :
    (fisherYates s l).Perm l :=
  fyAux_perm l.length s l le_rfl

theorem fisherYates_length {α : Type} (s : Nat) (l : List α) :
    (fisherYates s l).length = l.length :=
  (fisherYates_perm s l).length_eq

/-! ### The strata partition the dataset -/

theorem sum_filter_length_eq :
    ∀ (ks : List String) (l : List Item), ks.Nodup →
      (∀ it ∈ l, stratumOf it ∈ ks) →
      (ks.map (fun k => (l.filter (fun it => stratumOf it = k)).length)).sum
        = l.length := by
  intro ks
  induction ks with
  | nil =>
    intro l _ hcov
    cases l with
    | nil => simp
    | cons it t => exact absurd (hcov it (List.mem_cons_self it t)) (by simp)
  | cons k ks ih =>
    intro l hnd hcov
    have hnd' := hnd.of_cons
    have hknotin : k ∉ ks := (List.nodup_cons.1 hnd).1
    have hsplit :
        (l.filter (fun it => stratumOf it = k)).length
          + (l.filter (fun it => ¬ stratumOf it = k)).length = l.length := by
      have hperm := List.filter_append_perm (fun it => decide (stratumOf it = k)) l
      have := hperm.length_eq
      rw [List.length_append] at this
      simpa using this
    have hmap :
        (ks.map (fun k' => (l.filter (fun it => stratumOf it = k')).length))
          = (ks.map (fun k' =>
              ((l.filter (fun it => ¬ stratumOf it = k)).filter
                (fun it => stratumOf it = k')).length)) := by
      refine List.map_congr_left ?_
      intro k' hk'
      have hne : k' ≠ k := by rintro rfl; exact hknotin hk'
      congr 1
      rw [List.filter_filter]
      refine List.filter_congr ?_
      intro it _
      by_cases h : stratumOf it = k'
      · have : ¬ stratumOf it = k := by rw [h]; exact hne
        simp [h, this, hne]
      · simp [h]
    have hcov' : ∀ it ∈ l.filter (fun it => ¬ stratumOf it = k),
        stratumOf it ∈ ks := by
      intro it hit
      rw [List.mem_filter] at hit
      have := hcov it hit.1
      rcases List.mem_cons.1 this with h | h
      · exact absurd h (by simpa using hit.2)
      · exact h
    calc (((k :: ks).map
            (fun k' => (l.filter (fun it => stratumOf it = k')).length)).sum)
        = (l.filter (fun it => stratumOf it = k)).length
          + (ks.map (fun k' =>
              (l.filter (fun it => stratumOf it = k')).length)).sum := by
            simp
      _ = (l.filter (fun it => stratumOf it = k)).length
          + (l.filter (fun it => ¬ stratumOf it = k)).length := by
            rw [hmap, ih _ hnd' hcov']
      _ = l.length := hsplit

/-- The multiset of `strataCounts` is the key/count table before sorting. -/
theorem strataCounts_perm (df : List Item) :
    (strataCounts df).Perm
      ((dedupFirst (df.map stratumOf)).map
        (fun k => (k, (df.filter (fun it => stratumOf it = k)).length))) :=
  List.perm_insertionSort countGe _

theorem strataCounts_keys_nodup (df : List Item) :
    ((strataCounts df).map (fun p => p.1)).Nodup := by
  have hperm := (strataCounts_perm df).map (fun p => p.1)
  rw [hperm.nodup_iff, List.map_map]
  have : ((fun p : String × Nat => p.1) ∘
      (fun k => (k, (df.filter (fun it => stratumOf it = k)).length)))
      = fun k => k := rfl
  rw [this]
  simpa using nodup_dedupFirst _

theorem strataCounts_counts_sum (df : List Item) :
    ((strataCounts df).map (fun p => p.2)).sum = df.length := by
  have hperm := (strataCounts_perm df).map (fun p => p.2)
  rw [hperm.sum_eq, List.map_map]
  have : ((fun p : String × Nat => p.2) ∘
      (fun k => (k, (df.filter (fun it => stratumOf it = k)).length)))
      = fun k => (df.filter (fun it => stratumOf it = k)).length := rfl
  rw [this]
  exact sum_filter_length_eq _ df (nodup_dedupFirst _)
    (fun it hit => (mem_dedupFirst _ _).2 (List.mem_map_of_mem stratumOf hit))

theorem mem_strataCounts (df : List Item) (p : String × Nat)
    (hp : p ∈ strataCounts df) :
    p.2 = (df.filter (fun it => stratumOf it = p.1)).length := by
  have := (strataCounts_perm df).mem_iff.1 hp
  rcases List.mem_map.1 this with ⟨k, _, rfl⟩
  rfl

theorem mem_strataCounts_count_pos (df : List Item) (p : String × Nat)
    (hp : p ∈ strataCounts df) : 0 < p.2 := by
  have hmem := (strataCounts_perm df).mem_iff.1 hp
  rcases List.mem_map.1 hmem with ⟨k, hk, rfl⟩
  rcases (mem_dedupFirst _ _).1 hk with hk'
  rcases List.mem_map.1 hk' with ⟨it, hit, rfl⟩
  have hin : it ∈ df.filter (fun x => stratumOf x = stratumOf it) := by
    rw [List.mem_filter]
    exact ⟨hit, by simp⟩
  simpa using List.length_pos_of_mem hin

/-! ### Exact proportional shares -/

theorem list_sum_map_sub {α : Type} (l : List α) (f g : α → ℚ) :
    (l.map (fun a => f a - g a)).sum = (l.map f).sum - (l.map g).sum := by
  induction l with
  | nil => simp
  | cons a t ih => simp [ih]; ring

theorem list_sum_map_one {α : Type} (l : List α) :
    (l.map (fun _ => (1:ℚ))).sum = (l.length : ℚ) := by
  induction l with
  | nil => simp
  | cons a t ih => simp [ih]; ring

theorem toNat_floor_cast (q : ℚ) (h : 0 ≤ q) :
    ((⌊q⌋.toNat : ℕ) : ℚ) = ((⌊q⌋ : ℤ) : ℚ) := by
  have h2 : ((⌊q⌋.toNat : ℤ)) = ⌊q⌋ := Int.toNat_of_nonneg (Int.floor_nonneg.2 h)
  exact_mod_cast h2

theorem exactAllocs_keys (df : List Item) (n : Nat) :
    (exactAllocs df n).map (fun p => p.1) = (strataCounts df).map (fun p => p.1) := by
  unfold exactAllocs
  rw [List.map_map]
  rfl

theorem exactAllocs_keys_nodup (df : List Item) (n : Nat) :
    ((exactAllocs df n).map (fun p => p.1)).Nodup := by
  rw [exactAllocs_keys]
  exact strataCounts_keys_nodup df

theorem exactAllocs_nodup (df : List Item) (n : Nat) :
    (exactAllocs df n).Nodup :=
  List.Nodup.of_map _ (exactAllocs_keys_nodup df n)

theorem exactAllocs_nonneg (df : List Item) (n : Nat) :
    ∀ p ∈ exactAllocs df n, 0 ≤ p.2 := by
  intro p hp
  unfold exactAllocs at hp
  rcases List.mem_map.1 hp with ⟨q, _, rfl⟩
  positivity

theorem sum_exactAllocs (df : List Item) (n : Nat) (h : df ≠ []) :
    ((exactAllocs df n).map (fun p => p.2)).sum = (n : ℚ) := by
  have hT : (0:ℚ) < (df.length : ℚ) := by
    have : 0 < df.length := List.length_pos.2 h
    exact_mod_cast this
  unfold exactAllocs
  rw [List.map_map]
  have h1 : ((fun p : String × ℚ => p.2) ∘
      fun p : String × Nat => (p.1, (p.2 : ℚ) / (df.length : ℚ) * (n : ℚ)))
      = fun p : String × Nat => (p.2 : ℚ) / (df.length : ℚ) * (n : ℚ) := rfl
  rw [h1]
  have h2 : (fun p : String × Nat => (p.2 : ℚ) / (df.length : ℚ) * (n : ℚ))
      = fun p : String × Nat =>
        ((fun q : String × Nat => (q.2 : ℚ)) p) * ((n : ℚ) / (df.length : ℚ)) := by
    funext p
    field_simp
  rw [h2, List.sum_map_mul_right]
  have h3 : ((strataCounts df).map (fun q : String × Nat => (q.2 : ℚ))).sum
      = (df.length : ℚ) := by
    have h4 : ((strataCounts df).map (fun q : String × Nat => (q.2 : ℚ))).sum
        = ((((strataCounts df).map (fun q => q.2)).sum : ℕ) : ℚ) := by
      rw [Nat.cast_list_sum, List.map_map]
      rfl
    rw [h4, strataCounts_counts_sum]
  rw [h3]
  field_simp

theorem floorSum_cast (df : List Item) (n : Nat) :
    ((floorSum df n : ℕ) : ℚ)
      = ((exactAllocs df n).map (fun p => ((⌊p.2⌋ : ℤ) : ℚ))).sum := by
  unfold floorSum
  rw [Nat.cast_list_sum, List.map_map]
  refine congrArg List.sum (List.map_congr_left ?_)
  intro p hp
  exact toNat_floor_cast p.2 (exactAllocs_nonneg df n p hp)

theorem floorSum_le (df : List Item) (n : Nat) (h : df ≠ []) :
    floorSum df n ≤ n := by
  have hle : ((floorSum df n : ℕ) : ℚ) ≤ (n : ℚ) := by
    rw [floorSum_cast]
    calc ((exactAllocs df n).map (fun p => ((⌊p.2⌋ : ℤ) : ℚ))).sum
        ≤ ((exactAllocs df n).map (fun p => p.2)).sum :=
          List.sum_le_sum (fun p _ => Int.floor_le p.2)
      _ = (n : ℚ) := sum_exactAllocs df n h
  exact_mod_cast hle

theorem fract_sum_eq (df : List Item) (n : Nat) (h : df ≠ []) :
    ((exactAllocs df n).map (fun p => Int.fract p.2)).sum
      = (n : ℚ) - ((floorSum df n : ℕ) : ℚ) := by
  have h1 : ((exactAllocs df n).map (fun p => Int.fract p.2)).sum
      = ((exactAllocs df n).map (fun p => p.2 - ((⌊p.2⌋ : ℤ) : ℚ))).sum := by
    refine congrArg List.sum (List.map_congr_left ?_)
    intro p _
    rw [Int.self_sub_floor]
  rw [h1, list_sum_map_sub, sum_exactAllocs df n h, floorSum_cast]

theorem remainderSlots_cast (df : List Item) (n : Nat) (h : df ≠ []) :
    ((remainderSlots df n : ℕ) : ℚ)
      = ((exactAllocs df n).map (fun p => Int.fract p.2)).sum := by
  unfold remainderSlots
  rw [Nat.cast_sub (floorSum_le df n h), fract_sum_eq df n h]

theorem exactAllocs_length_pos (df : List Item) (n : Nat) (h : df ≠ []) :
    0 < (exactAllocs df n).length := by
  cases df with
  | nil => exact absurd rfl h
  | cons it t =>
    refine List.length_pos_of_mem (a := (stratumOf it,
      (((it :: t).filter (fun x => stratumOf x = stratumOf it)).length : ℚ)
        / (((it :: t).length : ℕ) : ℚ) * (n : ℚ))) ?_
    unfold exactAllocs
    refine List.mem_map.2 ⟨(stratumOf it,
      ((it :: t).filter (fun x => stratumOf x = stratumOf it)).length), ?_, rfl⟩
    have : stratumOf it ∈ dedupFirst ((it :: t).map stratumOf) :=
      (mem_dedupFirst _ _).2 (List.mem_map_of_mem stratumOf (List.mem_cons_self it t))
    exact ((strataCounts_perm (it :: t)).mem_iff).2
      (List.mem_map.2 ⟨stratumOf it, this, rfl⟩)

theorem remainderSlots_lt (df : List Item) (n : Nat) (h : df ≠ []) :
    remainderSlots df n < (exactAllocs df n).length := by
  have hlt : ((remainderSlots df n : ℕ) : ℚ) < ((exactAllocs df n).length : ℚ) := by
    rw [remainderSlots_cast df n h]
    have hne : exactAllocs df n ≠ [] := by
      intro hnil
      have := exactAllocs_length_pos df n h
      rw [hnil] at this
      simp at this
    rcases List.exists_mem_of_ne_nil _ hne with ⟨p0, hp0⟩
    calc ((exactAllocs df n).map (fun p => Int.fract p.2)).sum
        < ((exactAllocs df n).map (fun _ => (1:ℚ))).sum :=
          List.sum_lt_sum _ _ (fun p _ => (Int.fract_lt_one p.2).le)
            ⟨p0, hp0, Int.fract_lt_one p0.2⟩
      _ = ((exactAllocs df n).length : ℚ) := list_sum_map_one _
  exact_mod_cast hlt

/-! ### The largest-remainder ranking -/

theorem remaindersRanked_perm (df : List Item) (n : Nat) :
    (remaindersRanked df n).Perm (exactAllocs df n) :=
  List.perm_insertionSort fractGe _

theorem remaindersRanked_sorted (df : List Item) (n : Nat) :
    List.Sorted fractGe (remaindersRanked df n) :=
  List.sorted_insertionSort fractGe _

theorem remaindersRanked_keys_nodup (df : List Item) (n : Nat) :
    ((remaindersRanked df n).map (fun p => p.1)).Nodup :=
  (((remaindersRanked_perm df n).map (fun p => p.1)).nodup_iff).2
    (exactAllocs_keys_nodup df n)

theorem fract_sum_ranked (df : List Item) (n : Nat) (h : df ≠ []) :
    ((remaindersRanked df n).map (fun p => Int.fract p.2)).sum
      = ((remainderSlots df n : ℕ) : ℚ) := by
  rw [((remaindersRanked_perm df n).map (fun p => Int.fract p.2)).sum_eq,
    remainderSlots_cast df n h]

/-- In a descending list of values below 1 whose sum is at least `r`,
every one of the first `r` values is positive. -/
theorem sorted_take_pos :
    ∀ (l : List ℚ), l.Pairwise (fun a b => b ≤ a) → (∀ x ∈ l, x < 1) →
      ∀ (r : ℕ), (r : ℚ) ≤ l.sum → ∀ x ∈ l.take r, 0 < x := by
  intro l
  induction l with
  | nil => intro _ _ r _ x hx; simp at hx
  | cons a t ih =>
    intro hpw hlt r hr x hx
    cases r with
    | zero => simp at hx
    | succ s =>
      rw [List.take_succ_cons, List.mem_cons] at hx
      have hlt_a : a < 1 := hlt a (List.mem_cons_self a t)
      rcases hx with rfl | hx
      · by_contra hle
        push_neg at hle
        have htail : ∀ y ∈ t, y ≤ 0 := by
          intro y hy
          exact le_trans (List.rel_of_pairwise_cons hpw hy) hle
        have hsum : t.sum ≤ 0 := by
          have h0 : (t.map (fun y => y)).sum ≤ (t.map (fun _ => (0:ℚ))).sum :=
            List.sum_le_sum (fun y hy => htail y hy)
          simpa using h0
        have : ((s + 1 : ℕ) : ℚ) ≤ x + t.sum := by simpa using hr
        have hcontra : ((s + 1 : ℕ) : ℚ) ≤ 0 := by
          calc ((s + 1 : ℕ) : ℚ) ≤ x + t.sum := this
            _ ≤ 0 + 0 := add_le_add hle hsum
            _ = 0 := by ring
        have : (0:ℚ) < ((s + 1 : ℕ) : ℚ) := by positivity
        linarith
      · refine ih hpw.of_cons (fun y hy => hlt y (List.mem_cons_of_mem a hy)) s ?_ x hx
        have h1 : ((s + 1 : ℕ) : ℚ) ≤ a + t.sum := by simpa using hr
        have h2 : ((s:ℕ) : ℚ) + 1 ≤ a + t.sum := by push_cast at h1 ⊢; linarith
        linarith

theorem extra_fract_pos (df : List Item) (n : Nat) (h : df ≠ []) :
    ∀ p ∈ (remaindersRanked df n).take (remainderSlots df n), 0 < Int.fract p.2 := by
  intro p hp
  have hmap : Int.fract p.2 ∈
      ((remaindersRanked df n).map (fun q => Int.fract q.2)).take (remainderSlots df n) := by
    rw [← List.map_take]
    exact List.mem_map_of_mem _ hp
  refine sorted_take_pos ((remaindersRanked df n).map (fun q => Int.fract q.2))
    ?_ ?_ (remainderSlots df n) ?_ _ hmap
  · rw [List.pairwise_map]
    exact remaindersRanked_sorted df n
  · intro x hx
    rcases List.mem_map.1 hx with ⟨q, _, rfl⟩
    exact Int.fract_lt_one q.2
  · rw [fract_sum_ranked df n h]

theorem eq_of_mem_keys_nodup {β : Type} :
    ∀ (l : List (String × β)), ((l.map (fun p => p.1)).Nodup) →
      ∀ p q, p ∈ l → q ∈ l → p.1 = q.1 → p = q := by
  intro l
  induction l with
  | nil => intro _ p q hp; simp at hp
  | cons a t ih =>
    intro hnd p q hp hq hk
    rw [List.map_cons, List.nodup_cons] at hnd
    rcases List.mem_cons.1 hp with hpa | hp' <;>
      rcases List.mem_cons.1 hq with hqa | hq'
    · rw [hpa, hqa]
    · exfalso
      apply hnd.1
      have hmem : q.1 ∈ t.map (fun p => p.1) := List.mem_map_of_mem _ hq'
      rwa [← hk, hpa] at hmem
    · exfalso
      apply hnd.1
      have hmem : p.1 ∈ t.map (fun p => p.1) := List.mem_map_of_mem _ hp'
      rwa [hk, hqa] at hmem
    · exact ih hnd.2 p q hp' hq' hk

theorem mem_extraKeys_fract_pos (df : List Item) (n : Nat) (h : df ≠ [])
    (p : String × ℚ) (hp : p ∈ exactAllocs df n) (hk : p.1 ∈ extraKeys df n) :
    0 < Int.fract p.2 := by
  rcases List.mem_map.1 hk with ⟨p', hp', hkey⟩
  have hp'r : p' ∈ remaindersRanked df n :=
    (List.take_sublist _ _).mem hp'
  have hp'e : p' ∈ exactAllocs df n := (remaindersRanked_perm df n).mem_iff.1 hp'r
  have : p' = p := eq_of_mem_keys_nodup _ (exactAllocs_keys_nodup df n) p' p hp'e hp hkey
  rw [← this]
  exact extra_fract_pos df n h p' hp'

theorem extraKeys_length (df : List Item) (n : Nat) (h : df ≠ []) :
    (extraKeys df n).length = remainderSlots df n := by
  unfold extraKeys
  rw [List.length_map, List.length_take]
  have hlen : (remaindersRanked df n).length = (exactAllocs df n).length :=
    (remaindersRanked_perm df n).length_eq
  have := remainderSlots_lt df n h
  omega

theorem extraKeys_nodup (df : List Item) (n : Nat) :
    (extraKeys df n).Nodup := by
  unfold extraKeys
  rw [List.map_take]
  exact List.Nodup.sublist (List.take_sublist _ _) (remaindersRanked_keys_nodup df n)

theorem extraKeys_subset (df : List Item) (n : Nat) :
    ∀ k ∈ extraKeys df n, k ∈ (exactAllocs df n).map (fun p => p.1) := by
  intro k hk
  rcases List.mem_map.1 hk with ⟨p', hp', rfl⟩
  exact List.mem_map_of_mem _
    ((remaindersRanked_perm df n).mem_iff.1 ((List.take_sublist _ _).mem hp'))

theorem sum_ite_mem :
    ∀ (ks es : List String), ks.Nodup → es.Nodup → (∀ e ∈ es, e ∈ ks) →
      (ks.map (fun k => if k ∈ es then 1 else 0)).sum = es.length := by
  intro ks es hks hes hsub
  have h1 : ∀ (ks' : List String),
      (ks'.map (fun k => if k ∈ es then 1 else 0)).sum
        = (ks'.filter (fun k => k ∈ es)).length := by
    intro ks'
    induction ks' with
    | nil => simp
    | cons k t ih =>
      by_cases hk : k ∈ es <;> simp [hk, ih] <;> omega
  rw [h1]
  have h2 : (ks.filter (fun k => k ∈ es)).Perm es := by
    rw [List.perm_ext_iff_of_nodup (hks.filter _) hes]
    intro a
    rw [List.mem_filter]
    constructor
    · rintro ⟨_, ha⟩
      simpa using ha
    · intro ha
      exact ⟨hsub a ha, by simpa using ha⟩
  exact h2.length_eq

/-- The final allocation sums to exactly `n` for every nonempty dataset. -/
theorem allocs_sum (df : List Item) (n : Nat) (h : df ≠ []) :
    ((floorAllocs df n).map (fun p => p.2)).sum = n := by
  unfold floorAllocs
  rw [List.map_map]
  have h1 : ((fun p : String × Nat => p.2) ∘
      fun p : String × ℚ => (p.1, allocWithExtra df n p))
      = fun p : String × ℚ => allocWithExtra df n p := rfl
  rw [h1]
  unfold allocWithExtra
  rw [List.sum_map_add]
  have hfloor : ((exactAllocs df n).map (fun p => (⌊p.2⌋).toNat)).sum
      = floorSum df n := rfl
  have hite : ((exactAllocs df n).map
      (fun p => if p.1 ∈ extraKeys df n then 1 else 0)).sum
      = (extraKeys df n).length := by
    have hcomp : ((exactAllocs df n).map
        (fun p => if p.1 ∈ extraKeys df n then 1 else 0))
        = (((exactAllocs df n).map (fun p => p.1)).map
            (fun k => if k ∈ extraKeys df n then 1 else 0)) := by
      rw [List.map_map]
      rfl
    rw [hcomp]
    exact sum_ite_mem _ _ (exactAllocs_keys_nodup df n) (extraKeys_nodup df n)
      (extraKeys_subset df n)
  rw [hfloor, hite, extraKeys_length df n h]
  unfold remainderSlots
  have := floorSum_le df n h
  omega

/-! ### The allocation respects stratum sizes when `n ≤ |df|` -/

theorem mem_exactAllocs_eq (df : List Item) (n : Nat) (p : String × ℚ)
    (hp : p ∈ exactAllocs df n) :
    p.2 = (((df.filter (fun it => stratumOf it = p.1)).length : ℕ) : ℚ)
      / (df.length : ℚ) * (n : ℚ) := by
  unfold exactAllocs at hp
  rcases List.mem_map.1 hp with ⟨q, hq, rfl⟩
  simp only
  rw [mem_strataCounts df q hq]

theorem mem_exactAllocs_pool_pos (df : List Item) (n : Nat) (p : String × ℚ)
    (hp : p ∈ exactAllocs df n) :
    0 < (df.filter (fun it => stratumOf it = p.1)).length := by
  unfold exactAllocs at hp
  rcases List.mem_map.1 hp with ⟨q, hq, rfl⟩
  have := mem_strataCounts_count_pos df q hq
  rw [mem_strataCounts df q hq] at this
  exact this

theorem alloc_le_count (df : List Item) (n : Nat) (h1 : 0 < n) (h2 : n ≤ df.length) :
    ∀ p ∈ exactAllocs df n,
      allocWithExtra df n p ≤ (df.filter (fun it => stratumOf it = p.1)).length := by
  intro p hp
  have hdf : df ≠ [] := by
    intro hnil
    rw [hnil] at h2
    simp at h2
    omega
  have hT : (0:ℚ) < (df.length : ℚ) := by
    have : 0 < df.length := List.length_pos.2 hdf
    exact_mod_cast this
  have hq := mem_exactAllocs_eq df n p hp
  have hqle : p.2 ≤ (((df.filter (fun it => stratumOf it = p.1)).length : ℕ) : ℚ) := by
    rw [hq]
    rw [div_mul_eq_mul_div, div_le_iff₀ hT]
    have hcast : ((n:ℕ):ℚ) ≤ ((df.length : ℕ):ℚ) := by exact_mod_cast h2
    have hc0 : (0:ℚ) ≤ (((df.filter (fun it => stratumOf it = p.1)).length : ℕ) : ℚ) := by
      positivity
    exact mul_le_mul_of_nonneg_left hcast hc0
  have h0 : 0 ≤ ⌊p.2⌋ := Int.floor_nonneg.2 (exactAllocs_nonneg df n p hp)
  unfold allocWithExtra
  by_cases hk : p.1 ∈ extraKeys df n
  · rw [if_pos hk]
    have hfr : 0 < Int.fract p.2 := mem_extraKeys_fract_pos df n hdf p hp hk
    have hne : p.2 ≠ (((df.filter (fun it => stratumOf it = p.1)).length : ℕ) : ℚ) := by
      intro hceq
      rw [hceq, Int.fract_natCast] at hfr
      exact lt_irrefl 0 hfr
    have hlt : p.2 < (((df.filter (fun it => stratumOf it = p.1)).length : ℕ) : ℚ) :=
      lt_of_le_of_ne hqle hne
    have hfl : ⌊p.2⌋ < ((df.filter (fun it => stratumOf it = p.1)).length : ℤ) := by
      have hlt2 : ((⌊p.2⌋ : ℤ) : ℚ)
          < (((df.filter (fun it => stratumOf it = p.1)).length : ℕ) : ℚ) :=
        lt_of_le_of_lt (Int.floor_le p.2) hlt
      exact_mod_cast hlt2
    omega
  · rw [if_neg hk]
    have hle2 : ((⌊p.2⌋ : ℤ) : ℚ)
        ≤ (((df.filter (fun it => stratumOf it = p.1)).length : ℕ) : ℚ) :=
      le_trans (Int.floor_le p.2) hqle
    have : ⌊p.2⌋ ≤ ((df.filter (fun it => stratumOf it = p.1)).length : ℤ) := by
      exact_mod_cast hle2
    omega

/-! ### Length and success of the sampler -/

theorem filterMap_rows_length (seed : Nat) (df : List Item) :
    ∀ (ps : List (String × Nat)),
      ((ps.filterMap (fun p =>
        if p.2 = 0 then none
        else
          let pool := df.filter (fun it => stratumOf it = p.1)
          some ((fisherYates seed pool).take (min p.2 pool.length)))).flatten).length
      = (ps.map (fun p =>
          min p.2 ((df.filter (fun it => stratumOf it = p.1)).length))).sum := by
  intro ps
  induction ps with
  | nil => simp
  | cons p t ih =>
    by_cases hz : p.2 = 0
    · simp [List.filterMap_cons, hz, ih]
    · simp [List.filterMap_cons, hz, ih, List.length_take, fisherYates_length]

theorem filterMap_rows_nil (seed : Nat) (df : List Item) :
    ∀ (ps : List (String × Nat)),
      (ps.filterMap (fun p =>
        if p.2 = 0 then none
        else
          let pool := df.filter (fun it => stratumOf it = p.1)
          some ((fisherYates seed pool).take (min p.2 pool.length)))) = [] →
      (ps.map (fun p => p.2)).sum = 0 := by
  intro ps hps
  rw [List.filterMap_eq_nil_iff] at hps
  refine List.sum_eq_zero ?_
  intro x hx
  rcases List.mem_map.1 hx with ⟨p, hp, rfl⟩
  have := hps p hp
  by_cases hz : p.2 = 0
  · exact hz
  · simp [hz] at this

theorem stratified_sample_length (df : List Item) (n seed : Nat) (l : List Item)
    (h : stratified_sample df n seed = some l) :
    l.length = cappedSum df n := by
  unfold stratified_sample at h
  by_cases he : ((floorAllocs df n).filterMap (fun p =>
      if p.2 = 0 then none
      else
        let pool := df.filter (fun it => stratumOf it = p.1)
        some ((fisherYates seed pool).take (min p.2 pool.length)))).isEmpty
  · rw [if_pos he] at h
    exact absurd h (by simp)
  · rw [if_neg he] at h
    have hl : l = fisherYates seed (((floorAllocs df n).filterMap (fun p =>
        if p.2 = 0 then none
        else
          let pool := df.filter (fun it => stratumOf it = p.1)
          some ((fisherYates seed pool).take (min p.2 pool.length)))).flatten) := by
      exact (Option.some.injEq _ _ ▸ h).symm
    rw [hl, fisherYates_length, filterMap_rows_length seed df (floorAllocs df n)]
    rfl

theorem stratified_sample_isSome (df : List Item) (n seed : Nat)
    (h : df ≠ []) (hn : 0 < n) :
    (stratified_sample df n seed).isSome = true := by
  have hne : ((floorAllocs df n).filterMap (fun p =>
      if p.2 = 0 then none
      else
        let pool := df.filter (fun it => stratumOf it = p.1)
        some ((fisherYates seed pool).take (min p.2 pool.length)))) ≠ [] := by
    intro hnil
    have h0 := filterMap_rows_nil seed df (floorAllocs df n) hnil
    rw [allocs_sum df n h] at h0
    omega
  unfold stratified_sample
  rw [if_neg (by simpa using hne)]
  rfl

theorem cappedSum_eq (df : List Item) (n : Nat) (h1 : 0 < n) (h2 : n ≤ df.length) :
    cappedSum df n = n := by
  have hdf : df ≠ [] := by
    intro hnil
    rw [hnil] at h2
    simp at h2
    omega
  unfold cappedSum
  have hcong : (floorAllocs df n).map
      (fun p => min p.2 ((df.filter (fun it => stratumOf it = p.1)).length))
      = (floorAllocs df n).map (fun p => p.2) := by
    refine List.map_congr_left ?_
    intro p hp
    unfold floorAllocs at hp
    rcases List.mem_map.1 hp with ⟨q, hq, rfl⟩
    simp only
    exact Nat.min_eq_left (alloc_le_count df n h1 h2 q hq)
  rw [hcong]
  exact allocs_sum df n hdf

/-! ### The sample is drawn from the dataset without repetition -/

theorem take_fy_coe_le {α : Type} (seed k : Nat) (l : List α) :
    (↑((fisherYates seed l).take k) : Multiset α) ≤ ↑l := by
  have h1 : ((fisherYates seed l).take k).Subperm (fisherYates seed l) :=
    (List.take_sublist k _).subperm
  have h2 : (↑((fisherYates seed l).take k) : Multiset α) ≤ ↑(fisherYates seed l) := h1
  have h3 : (↑(fisherYates seed l) : Multiset α) = ↑l :=
    Multiset.coe_eq_coe.2 (fisherYates_perm seed l)
  rw [h3] at h2
  exact h2

theorem sum_filter_multiset_le :
    ∀ (ks : List String) (s : Multiset Item), ks.Nodup →
      (ks.map (fun k => Multiset.filter (fun it => stratumOf it = k) s)).sum ≤ s := by
  intro ks
  induction ks with
  | nil => intro s _; simp
  | cons k t ih =>
    intro s hnd
    rw [List.map_cons, List.sum_cons]
    have hknotin : k ∉ t := (List.nodup_cons.1 hnd).1
    have hcong : t.map (fun k' => Multiset.filter (fun it => stratumOf it = k') s)
        = t.map (fun k' => Multiset.filter (fun it => stratumOf it = k')
            (Multiset.filter (fun it => ¬ stratumOf it = k) s)) := by
      refine List.map_congr_left ?_
      intro k' hk'
      have hne : k' ≠ k := by rintro rfl; exact hknotin hk'
      rw [Multiset.filter_filter]
      refine (Multiset.filter_congr ?_).symm
      intro it _
      constructor
      · rintro ⟨h1, _⟩; exact h1
      · intro h1; exact ⟨h1, by rw [h1]; exact hne⟩
    rw [hcong]
    have hle := ih (Multiset.filter (fun it => ¬ stratumOf it = k) s) (List.Nodup.of_cons hnd)
    calc Multiset.filter (fun it => stratumOf it = k) s
          + (t.map (fun k' => Multiset.filter (fun it => stratumOf it = k')
              (Multiset.filter (fun it => ¬ stratumOf it = k) s))).sum
        ≤ Multiset.filter (fun it => stratumOf it = k) s
          + Multiset.filter (fun it => ¬ stratumOf it = k) s :=
          add_le_add_left hle _
      _ = s := Multiset.filter_add_not _ s

theorem filterMap_rows_coe_le_sum (seed : Nat) (df : List Item) :
    ∀ (ps : List (String × Nat)),
      (↑((ps.filterMap (fun p =>
        if p.2 = 0 then none
        else
          let pool := df.filter (fun it => stratumOf it = p.1)
          some ((fisherYates seed pool).take (min p.2 pool.length)))).flatten)
        : Multiset Item)
      ≤ (ps.map (fun p =>
          Multiset.filter (fun it => stratumOf it = p.1) (↑df : Multiset Item))).sum := by
  intro ps
  induction ps with
  | nil => simp
  | cons p t ih =>
    rw [List.map_cons, List.sum_cons]
    by_cases hz : p.2 = 0
    · have hred : (p :: t).filterMap (fun p : String × Nat =>
          if p.2 = 0 then none
          else
            let pool := df.filter (fun it => stratumOf it = p.1)
            some ((fisherYates seed pool).take (min p.2 pool.length)))
          = t.filterMap (fun p : String × Nat =>
          if p.2 = 0 then none
          else
            let pool := df.filter (fun it => stratumOf it = p.1)
            some ((fisherYates seed pool).take (min p.2 pool.length))) := by
        simp [List.filterMap_cons, hz]
      rw [hred]
      exact le_trans ih (le_add_of_nonneg_left (Multiset.zero_le _))
    · have hred : (p :: t).filterMap (fun p : String × Nat =>
          if p.2 = 0 then none
          else
            let pool := df.filter (fun it => stratumOf it = p.1)
            some ((fisherYates seed pool).take (min p.2 pool.length)))
          = ((fisherYates seed (df.filter (fun it => stratumOf it = p.1))).take
              (min p.2 ((df.filter (fun it => stratumOf it = p.1)).length)))
            :: t.filterMap (fun p : String × Nat =>
          if p.2 = 0 then none
          else
            let pool := df.filter (fun it => stratumOf it = p.1)
            some ((fisherYates seed pool).take (min p.2 pool.length))) := by
        simp [List.filterMap_cons, hz]
      rw [hred, List.flatten_cons]
      show (↑((fisherYates seed (df.filter (fun it => stratumOf it = p.1))).take
            (min p.2 ((df.filter (fun it => stratumOf it = p.1)).length))) : Multiset Item)
          + ↑((t.filterMap (fun p : String × Nat =>
              if p.2 = 0 then none
              else
                let pool := df.filter (fun it => stratumOf it = p.1)
                some ((fisherYates seed pool).take (min p.2 pool.length)))).flatten)
        ≤ Multiset.filter (fun it => stratumOf it = p.1) (↑df : Multiset Item)
          + (t.map (fun p =>
              Multiset.filter (fun it => stratumOf it = p.1) (↑df : Multiset Item))).sum
      exact add_le_add (take_fy_coe_le seed _ _) ih

theorem floorAllocs_keys (df : List Item) (n : Nat) :
    (floorAllocs df n).map (fun p => p.1) = (exactAllocs df n).map (fun p => p.1) := by
  unfold floorAllocs
  rw [List.map_map]
  rfl

theorem stratified_sample_coe_le (df : List Item) (n seed : Nat) (l : List Item)
    (h : stratified_sample df n seed = some l) :
    (↑l : Multiset Item) ≤ ↑df := by
  unfold stratified_sample at h
  by_cases he : ((floorAllocs df n).filterMap (fun p =>
      if p.2 = 0 then none
      else
        let pool := df.filter (fun it => stratumOf it = p.1)
        some ((fisherYates seed pool).take (min p.2 pool.length)))).isEmpty
  · rw [if_pos he] at h
    exact absurd h (by simp)
  · rw [if_neg he] at h
    have hl : l = fisherYates seed (((floorAllocs df n).filterMap (fun p =>
        if p.2 = 0 then none
        else
          let pool := df.filter (fun it => stratumOf it = p.1)
          some ((fisherYates seed pool).take (min p.2 pool.length)))).flatten) :=
      (Option.some.injEq _ _ ▸ h).symm
    have hcoe : (↑l : Multiset Item) = ↑(((floorAllocs df n).filterMap (fun p =>
        if p.2 = 0 then none
        else
          let pool := df.filter (fun it => stratumOf it = p.1)
          some ((fisherYates seed pool).take (min p.2 pool.length)))).flatten) := by
      rw [hl]
      exact Multiset.coe_eq_coe.2 (fisherYates_perm seed _)
    rw [hcoe]
    refine le_trans (filterMap_rows_coe_le_sum seed df (floorAllocs df n)) ?_
    have hmm : (floorAllocs df n).map (fun p =>
        Multiset.filter (fun it => stratumOf it = p.1) (↑df : Multiset Item))
        = ((floorAllocs df n).map (fun p => p.1)).map (fun k =>
            Multiset.filter (fun it => stratumOf it = k) (↑df : Multiset Item)) := by
      rw [List.map_map]
      rfl
    rw [hmm, floorAllocs_keys]
    exact sum_filter_multiset_le _ _ (exactAllocs_keys_nodup df n)

theorem stratified_sample_nodup_ids (df : List Item) (n seed : Nat) (l : List Item)
    (hnd : (df.map Item.instance_id).Nodup)
    (h : stratified_sample df n seed = some l) :
    (l.map Item.instance_id).Nodup := by
  have hle := stratified_sample_coe_le df n seed l h
  have hmap : (↑(l.map Item.instance_id) : Multiset String)
      ≤ ↑(df.map Item.instance_id) :=
    Multiset.map_le_map hle
  exact Multiset.coe_nodup.1
    (Multiset.nodup_of_le hmap (Multiset.coe_nodup.2 hnd))

/-! ### Stability of the remainder ranking -/

theorem self_sublist_orderedInsert {α : Type} (r : α → α → Prop) [DecidableRel r] :
    ∀ (m : List α) (x : α), m.Sublist (List.orderedInsert r x m) := by
  intro m x
  induction m with
  | nil => simp
  | cons b t ih =>
    rw [List.orderedInsert]
    by_cases h : r x b
    · rw [if_pos h]
      exact List.sublist_cons_self x (b :: t)
    · rw [if_neg h]
      exact List.cons_sublist_cons.2 ih

theorem pair_sublist_orderedInsert {α : Type} (r : α → α → Prop) [DecidableRel r]
    (x b : α) (hr : r x b) :
    ∀ (m : List α), b ∈ m → [x, b].Sublist (List.orderedInsert r x m) := by
  intro m
  induction m with
  | nil => intro h; simp at h
  | cons z t ih =>
    intro hb
    rw [List.orderedInsert]
    by_cases hxz : r x z
    · rw [if_pos hxz]
      exact List.cons_sublist_cons.2 (List.singleton_sublist.2 hb)
    · rw [if_neg hxz]
      rcases List.mem_cons.1 hb with rfl | hbt
      · exact absurd hr hxz
      · exact (ih hbt).cons z

theorem pair_sublist_insertionSort {α : Type} (r : α → α → Prop) [DecidableRel r]
    (a b : α) (hr : r a b) :
    ∀ (l : List α), [a, b].Sublist l → [a, b].Sublist (List.insertionSort r l) := by
  intro l
  induction l with
  | nil => intro h; simp at h
  | cons x t ih =>
    intro hab
    rw [List.insertionSort]
    rcases List.sublist_cons_iff.1 hab with h | ⟨rest, heq, hrest⟩
    · exact (ih h).trans (self_sublist_orderedInsert r _ x)
    · injection heq with h1 h2
      subst h1
      have hb : b ∈ t := by
        have : rest = [b] := h2.symm
        rw [this] at hrest
        exact List.singleton_sublist.1 hrest
      have hbsort : b ∈ List.insertionSort r t :=
        (List.perm_insertionSort r t).mem_iff.2 hb
      exact pair_sublist_orderedInsert r a b hr _ hbsort

theorem mem_take_of_pair_sublist {α : Type} :
    ∀ (l : List α) (r : ℕ) (a b : α), l.Nodup → [a, b].Sublist l →
      b ∈ l.take r → a ∈ l.take r := by
  intro l
  induction l with
  | nil => intro r a b _ h; simp at h
  | cons c t ih =>
    intro r a b hnd hab hbt
    cases r with
    | zero => simp at hbt
    | succ s =>
      rw [List.take_succ_cons, List.mem_cons] at hbt ⊢
      rcases List.sublist_cons_iff.1 hab with h | ⟨rest, heq, hrest⟩
      · rcases hbt with rfl | hbt'
        · have hbmem : b ∈ t := h.mem (by simp)
          exact absurd hbmem (List.nodup_cons.1 hnd).1
        · exact Or.inr (ih s a b (List.nodup_cons.1 hnd).2 h hbt')
      · injection heq with h1 h2
        exact Or.inl h1

theorem remaindersRanked_nodup (df : List Item) (n : Nat) :
    (remaindersRanked df n).Nodup :=
  List.Nodup.of_map _ (remaindersRanked_keys_nodup df n)

/-- When two strata tie on fractional remainder, the one listed first in
the `value_counts` ordering is ranked first: if the later one receives an
extra slot, so does the earlier one. -/
theorem extra_stability (df : List Item) (n : Nat) (p₁ p₂ : String × ℚ)
    (hsub : [p₁, p₂].Sublist (exactAllocs df n))
    (hfr : Int.fract p₁.2 = Int.fract p₂.2)
    (hk : p₂.1 ∈ extraKeys df n) :
    p₁.1 ∈ extraKeys df n := by
  have hr : fractGe p₁ p₂ := le_of_eq hfr.symm
  have hsorted : [p₁, p₂].Sublist (remaindersRanked df n) :=
    pair_sublist_insertionSort fractGe p₁ p₂ hr _ hsub
  rcases List.mem_map.1 hk with ⟨q, hq, hqk⟩
  have hqr : q ∈ remaindersRanked df n := (List.take_sublist _ _).mem hq
  have hp₂r : p₂ ∈ remaindersRanked df n := hsorted.mem (by simp)
  have hqp : q = p₂ :=
    eq_of_mem_keys_nodup _ (remaindersRanked_keys_nodup df n) q p₂ hqr hp₂r hqk
  rw [hqp] at hq
  have hp₁ : p₁ ∈ (remaindersRanked df n).take (remainderSlots df n) :=
    mem_take_of_pair_sublist _ _ p₁ p₂ (remaindersRanked_nodup df n) hsorted hq
  exact List.mem_map_of_mem _ hp₁

/-! ### Injectivity of the stratum key -/

theorem keyChars_inj :
    ∀ (r₁ r₂ d₁ d₂ : List Char), '|' ∉ r₁ → '|' ∉ r₂ →
      r₁ ++ ' ' :: '|' :: ' ' :: d₁ = r₂ ++ ' ' :: '|' :: ' ' :: d₂ →
      r₁ = r₂ ∧ d₁ = d₂ := by
  intro r₁
  induction r₁ with
  | nil =>
    intro r₂ d₁ d₂ h1 h2 heq
    cases r₂ with
    | nil =>
      simp only [List.nil_append, List.cons.injEq, true_and] at heq
      exact ⟨rfl, heq⟩
    | cons c r₂' =>
      simp only [List.nil_append, List.cons_append, List.cons.injEq] at heq
      obtain ⟨hc, heq2⟩ := heq
      cases r₂' with
      | nil => simp at heq2
      | cons c' r₂'' =>
        simp only [List.cons_append, List.cons.injEq] at heq2
        exfalso
        apply h2
        rw [heq2.1]
        exact List.mem_cons_of_mem c (List.mem_cons_self c' r₂'')
  | cons c r₁' ih =>
    intro r₂ d₁ d₂ h1 h2 heq
    cases r₂ with
    | nil =>
      simp only [List.cons_append, List.nil_append, List.cons.injEq] at heq
      obtain ⟨hc, heq2⟩ := heq
      cases r₁' with
      | nil => simp at heq2
      | cons c' r₁'' =>
        simp only [List.cons_append, List.cons.injEq] at heq2
        exfalso
        apply h1
        rw [heq2.1]
        exact List.mem_cons_of_mem c (List.mem_cons_self '|' r₁'')
    | cons c₂ r₂' =>
      simp only [List.cons_append, List.cons.injEq] at heq
      obtain ⟨hc, heq2⟩ := heq
      have hrec := ih r₂' d₁ d₂
        (fun hm => h1 (List.mem_cons_of_mem c hm))
        (fun hm => h2 (List.mem_cons_of_mem c₂ hm)) heq2
      exact ⟨by rw [hc, hrec.1], hrec.2⟩

theorem stratumKey_data (r d : String) :
    (stratumKey r d).data = r.data ++ ' ' :: '|' :: ' ' :: d.data := by
  unfold stratumKey
  rw [String.data_append, String.data_append, List.append_assoc]
  rfl

theorem stratumKey_inj (r₁ d₁ r₂ d₂ : String)
    (hr₁ : '|' ∉ r₁.data) (hr₂ : '|' ∉ r₂.data) :
    stratumKey r₁ d₁ = stratumKey r₂ d₂ ↔ (r₁ = r₂ ∧ d₁ = d₂) := by
  constructor
  · intro h
    have hd := congrArg String.data h
    rw [stratumKey_data, stratumKey_data] at hd
    have hinj := keyChars_inj r₁.data r₂.data d₁.data d₂.data hr₁ hr₂ hd
    exact ⟨String.ext hinj.1, String.ext hinj.2⟩
  · rintro ⟨rfl, rfl⟩
    rfl

/-! ### Concrete datasets for witnesses and counterexamples -/

/-- A dataset record with the given identifier and labels. -/
def mkItem (id repo diff : String) : Item := ⟨id, repo, diff, ""⟩

/-- The spec's concrete scenario: 6 items in stratum `A | easy`, 4 in
`B | hard`. -/
def dsA : List Item :=
  [mkItem "a1" "A" "easy", mkItem "a2" "A" "easy", mkItem "a3" "A" "easy",
   mkItem "a4" "A" "easy", mkItem "a5" "A" "easy", mkItem "a6" "A" "easy",
   mkItem "b1" "B" "hard", mkItem "b2" "B" "hard", mkItem "b3" "B" "hard",
   mkItem "b4" "B" "hard"]

/-- Two items in a single stratum. -/
def dsB : List Item := [mkItem "x1" "A" "x", mkItem "x2" "A" "x"]

/-- Three items in stratum `B | x` and one in `A | x`: with `n = 2` both
strata have fractional remainder `1/2` and one extra slot is available. -/
def dsC6 : List Item :=
  [mkItem "b1" "B" "x", mkItem "b2" "B" "x", mkItem "b3" "B" "x",
   mkItem "a1" "A" "x"]

/-- Strata `C | x` (2 items), `A | x` (1), `B | x` (1): with `n = 3` the
strata `A | x` and `B | x` tie at remainder `3/4` and both receive one of
the two extra slots. -/
def dsC6W : List Item :=
  [mkItem "c1" "C" "x", mkItem "c2" "C" "x", mkItem "a1" "A" "x",
   mkItem "b1" "B" "x"]

theorem strataCounts_dsB : strataCounts dsB = [("A | x", 2)] := by decide

theorem exactAllocs_dsB : exactAllocs dsB 5 = [("A | x", (5:ℚ))] := by
  unfold exactAllocs
  rw [strataCounts_dsB]
  simp only [List.map_cons, List.map_nil]
  have : (dsB.length : ℚ) = 2 := by simp [dsB]
  rw [this]
  norm_num

theorem floorSum_dsB : floorSum dsB 5 = 5 := by
  unfold floorSum
  rw [exactAllocs_dsB]
  norm_num
  decide

theorem remainderSlots_dsB : remainderSlots dsB 5 = 0 := by
  unfold remainderSlots
  rw [floorSum_dsB]

theorem extraKeys_dsB : extraKeys dsB 5 = [] := by
  unfold extraKeys
  rw [remainderSlots_dsB]
  simp

theorem floorAllocs_dsB : floorAllocs dsB 5 = [("A | x", 5)] := by
  unfold floorAllocs allocWithExtra
  rw [exactAllocs_dsB, extraKeys_dsB]
  simp only [List.map_cons, List.map_nil, List.not_mem_nil, if_neg, Nat.add_zero]
  norm_num
  decide

theorem sample_dsB :
    stratified_sample dsB 5 0
      = some [mkItem "x1" "A" "x", mkItem "x2" "A" "x"] := by
  unfold stratified_sample
  rw [floorAllocs_dsB]
  decide

theorem cappedSum_dsB : cappedSum dsB 5 = 2 := by
  unfold cappedSum
  rw [floorAllocs_dsB]
  decide

theorem strataCounts_dsC6 : strataCounts dsC6 = [("B | x", 3), ("A | x", 1)] := by
  decide

theorem exactAllocs_dsC6 :
    exactAllocs dsC6 2 = [("B | x", (3:ℚ)/2), ("A | x", (1:ℚ)/2)] := by
  unfold exactAllocs
  rw [strataCounts_dsC6]
  simp only [List.map_cons, List.map_nil]
  have : (dsC6.length : ℚ) = 4 := by simp [dsC6]
  rw [this]
  norm_num

theorem floorSum_dsC6 : floorSum dsC6 2 = 1 := by
  unfold floorSum
  rw [exactAllocs_dsC6]
  simp only [List.map_cons, List.map_nil, List.sum_cons, List.sum_nil]
  norm_num

theorem remainderSlots_dsC6 : remainderSlots dsC6 2 = 1 := by
  unfold remainderSlots
  rw [floorSum_dsC6]

theorem fract_half : Int.fract ((1:ℚ)/2) = 1/2 := by
  rw [Int.fract]
  norm_num

theorem fract_three_half : Int.fract ((3:ℚ)/2) = 1/2 := by
  rw [Int.fract]
  norm_num

theorem remaindersRanked_dsC6 :
    remaindersRanked dsC6 2 = [("B | x", (3:ℚ)/2), ("A | x", (1:ℚ)/2)] := by
  unfold remaindersRanked
  rw [exactAllocs_dsC6]
  rw [List.insertionSort, List.insertionSort, List.insertionSort, List.orderedInsert]
  rw [List.orderedInsert]
  rw [if_pos]
  show Int.fract ((1:ℚ)/2) ≤ Int.fract ((3:ℚ)/2)
  rw [fract_half, fract_three_half]

theorem extraKeys_dsC6 : extraKeys dsC6 2 = ["B | x"] := by
  unfold extraKeys
  rw [remainderSlots_dsC6, remaindersRanked_dsC6]
  rfl

theorem strataCounts_dsC6W :
    strataCounts dsC6W = [("C | x", 2), ("A | x", 1), ("B | x", 1)] := by
  decide

theorem exactAllocs_dsC6W :
    exactAllocs dsC6W 3
      = [("C | x", (3:ℚ)/2), ("A | x", (3:ℚ)/4), ("B | x", (3:ℚ)/4)] := by
  unfold exactAllocs
  rw [strataCounts_dsC6W]
  simp only [List.map_cons, List.map_nil]
  have : (dsC6W.length : ℚ) = 4 := by simp [dsC6W]
  rw [this]
  norm_num

theorem floorSum_dsC6W : floorSum dsC6W 3 = 1 := by
  unfold floorSum
  rw [exactAllocs_dsC6W]
  simp only [List.map_cons, List.map_nil, List.sum_cons, List.sum_nil]
  norm_num

theorem remainderSlots_dsC6W : remainderSlots dsC6W 3 = 2 := by
  unfold remainderSlots
  rw [floorSum_dsC6W]

theorem fract_three_quarter : Int.fract ((3:ℚ)/4) = 3/4 := by
  rw [Int.fract]
  norm_num

theorem remaindersRanked_dsC6W :
    remaindersRanked dsC6W 3
      = [("A | x", (3:ℚ)/4), ("B | x", (3:ℚ)/4), ("C | x", (3:ℚ)/2)] := by
  unfold remaindersRanked
  rw [exactAllocs_dsC6W]
  rw [List.insertionSort, List.insertionSort, List.insertionSort, List.insertionSort]
  rw [List.orderedInsert]
  rw [List.orderedInsert, if_pos (by
    show Int.fract ((3:ℚ)/4) ≤ Int.fract ((3:ℚ)/4)
    exact le_rfl)]
  rw [List.orderedInsert, if_neg (by
    show ¬ Int.fract ((3:ℚ)/4) ≤ Int.fract ((3:ℚ)/2)
    rw [fract_three_quarter, fract_three_half]
    norm_num)]
  rw [List.orderedInsert, if_neg (by
    show ¬ Int.fract ((3:ℚ)/4) ≤ Int.fract ((3:ℚ)/2)
    rw [fract_three_quarter, fract_three_half]
    norm_num)]
  rw [List.orderedInsert]

theorem extraKeys_dsC6W : extraKeys dsC6W 3 = ["A | x", "B | x"] := by
  unfold extraKeys
  rw [remainderSlots_dsC6W, remaindersRanked_dsC6W]
  rfl

theorem strataCounts_dsA :
    strataCounts dsA = [("A | easy", 6), ("B | hard", 4)] := by
  decide

theorem exactAllocs_dsA :
    exactAllocs dsA 5 = [("A | easy", (3:ℚ)), ("B | hard", (2:ℚ))] := by
  unfold exactAllocs
  rw [strataCounts_dsA]
  simp only [List.map_cons, List.map_nil]
  have : (dsA.length : ℚ) = 10 := by simp [dsA]
  rw [this]
  norm_num

/-! ### The claims -/

/-- A zero allocation for every stratum makes the concatenation step fail. -/
theorem stratified_sample_zero (df : List Item) (seed : Nat) :
    stratified_sample df 0 seed = none := by
  have hz : ∀ p ∈ floorAllocs df 0, p.2 = 0 := by
    intro p hp
    unfold floorAllocs at hp
    rcases List.mem_map.1 hp with ⟨q, hq, rfl⟩
    simp only
    unfold allocWithExtra
    have hq2 : q.2 = 0 := by
      have := mem_exactAllocs_eq df 0 q hq
      simpa using this
    have hextras : extraKeys df 0 = [] := by
      unfold extraKeys remainderSlots
      simp
    rw [hq2, hextras]
    simp
  have hnil : ((floorAllocs df 0).filterMap (fun p =>
      if p.2 = 0 then none
      else
        let pool := df.filter (fun it => stratumOf it = p.1)
        some ((fisherYates seed pool).take (min p.2 pool.length)))) = [] := by
    rw [List.filterMap_eq_nil_iff]
    intro p hp
    rw [if_pos (hz p hp)]
  unfold stratified_sample
  rw [hnil]
  rfl

/-- C1 (amended): the program performs no `InvalidSampleSize` validation.
For every nonempty dataset and every positive `n` — including `n` larger
than the dataset — the sampler succeeds (capping draws instead of
failing), and for `n = 0` the run fails only at the concatenation step,
after the allocation work, not before sampling begins. -/
theorem sampler_no_size_validation (df : List Item) (n seed : Nat) :
    (df ≠ [] → 0 < n → (stratified_sample df n seed).isSome = true)
      ∧ stratified_sample df 0 seed = none :=
  ⟨fun h hn => stratified_sample_isSome df n seed h hn,
    stratified_sample_zero df seed⟩

theorem sampler_no_size_validation_witness :
    (stratified_sample dsB 5 0).isSome = true :=
  (sampler_no_size_validation dsB 5 0).1 (by decide) (by decide)

/-- C1 counterexample: on a 2-item dataset a request for `N = 5 > 2`
does not fail — no `InvalidSampleSize` condition is raised. -/
theorem sampler_accepts_oversized_n :
    dsB.length = 2 ∧ stratified_sample dsB 5 0 ≠ none := by
  refine ⟨rfl, ?_⟩
  rw [sample_dsB]
  simp

/-- C2: for every dataset and every `N` with `0 < N ≤ |dataset|`, the
integer allocation (floors of the exact proportional shares plus one
extra slot for each top-remainder stratum) sums to exactly `N`. -/
theorem allocation_sums_to_n (df : List Item) (n : Nat)
    (h1 : 0 < n) (h2 : n ≤ df.length) :
    ((floorAllocs df n).map (fun p => p.2)).sum = n := by
  have hdf : df ≠ [] := by
    intro hnil
    rw [hnil] at h2
    simp at h2
    omega
  exact allocs_sum df n hdf

theorem allocation_sums_to_n_witness :
    ((floorAllocs dsA 5).map (fun p => p.2)).sum = 5 :=
  allocation_sums_to_n dsA 5 (by decide) (by decide)

/-- C3: whenever the sampler returns a result its length is the sum of
the capped allocation, and for every valid `0 < N ≤ |dataset|` it
returns an ordered sequence of exactly `N` items. -/
theorem sampler_returns_n_items (df : List Item) (n seed : Nat) :
    (∀ l, stratified_sample df n seed = some l → l.length = cappedSum df n)
      ∧ (0 < n → n ≤ df.length →
          (stratified_sample df n seed).map List.length = some n) := by
  constructor
  · intro l hl
    exact stratified_sample_length df n seed l hl
  · intro h1 h2
    have hdf : df ≠ [] := by
      intro hnil
      rw [hnil] at h2
      simp at h2
      omega
    have hs := stratified_sample_isSome df n seed hdf h1
    rcases Option.isSome_iff_exists.1 hs with ⟨l, hl⟩
    rw [hl]
    show some l.length = some n
    rw [stratified_sample_length df n seed l hl, cappedSum_eq df n h1 h2]

theorem sampler_returns_n_items_witness :
    (stratified_sample dsA 5 7).map List.length = some 5 :=
  (sampler_returns_n_items dsA 5 7).2 (by decide) (by decide)

/-- C4: the pipeline is deterministic — two runs on an identical
(dataset, N, seed) triple return the identical sample, same items in the
same final order. -/
theorem sampler_deterministic (df₁ df₂ : List Item) (n₁ n₂ s₁ s₂ : Nat)
    (hdf : df₁ = df₂) (hn : n₁ = n₂) (hs : s₁ = s₂) :
    stratified_sample df₁ n₁ s₁ = stratified_sample df₂ n₂ s₂ := by
  rw [hdf, hn, hs]

theorem sampler_deterministic_witness :
    stratified_sample dsA 5 7 = stratified_sample dsA 5 7 :=
  sampler_deterministic dsA dsA 5 5 7 7 rfl rfl rfl

/-- C5: for `0 < N ≤ |dataset|`, every stratum's final integer count
differs from its exact proportional share by strictly less than 1. -/
theorem allocation_within_one_of_exact (df : List Item) (n : Nat)
    (h1 : 0 < n) (h2 : n ≤ df.length) :
    ∀ p ∈ exactAllocs df n,
      |((allocWithExtra df n p : ℕ) : ℚ) - p.2| < 1 := by
  intro p hp
  have hdf : df ≠ [] := by
    intro hnil
    rw [hnil] at h2
    simp at h2
    omega
  have h0 : 0 ≤ p.2 := exactAllocs_nonneg df n p hp
  have hfl : ((⌊p.2⌋.toNat : ℕ) : ℚ) = ((⌊p.2⌋ : ℤ) : ℚ) := toNat_floor_cast p.2 h0
  have hid : Int.fract p.2 = p.2 - ((⌊p.2⌋ : ℤ) : ℚ) := (Int.self_sub_floor p.2).symm
  have hlt := Int.fract_lt_one p.2
  have hnn := Int.fract_nonneg p.2
  unfold allocWithExtra
  by_cases hk : p.1 ∈ extraKeys df n
  · rw [if_pos hk]
    have hfr : 0 < Int.fract p.2 := mem_extraKeys_fract_pos df n hdf p hp hk
    rw [Nat.cast_add, Nat.cast_one, hfl, abs_lt]
    constructor <;> linarith
  · rw [if_neg hk]
    rw [Nat.add_zero, hfl, abs_lt]
    constructor <;> linarith

theorem allocation_within_one_of_exact_witness :
    |((allocWithExtra dsA 5 ("A | easy", (3:ℚ)) : ℕ) : ℚ) - (3:ℚ)| < 1 :=
  allocation_within_one_of_exact dsA 5 (by decide) (by decide)
    ("A | easy", (3:ℚ)) (by rw [exactAllocs_dsA]; exact List.mem_cons_self _ _)

/-- C6 counterexample: on `dsC6` with `N = 2` both strata have the same
fractional remainder `1/2` and exactly one extra slot exists, yet it is
awarded to `B | x`, the lexically larger key — the tie is broken by the
`value_counts` order (larger stratum first), not lexically. -/
theorem tie_goes_to_larger_stratum :
    (exactAllocs dsC6 2).map (fun p => p.1) = ["B | x", "A | x"]
      ∧ (exactAllocs dsC6 2).map (fun p => Int.fract p.2) = [1/2, 1/2]
      ∧ extraKeys dsC6 2 = ["B | x"]
      ∧ ("A | x").data < ("B | x").data := by
  refine ⟨?_, ?_, extraKeys_dsC6, by decide⟩
  · rw [exactAllocs_dsC6]
    rfl
  · rw [exactAllocs_dsC6]
    simp only [List.map_cons, List.map_nil]
    rw [fract_three_half, fract_half]

/-- C6 (amended): ties in the largest-remainder ranking are broken by
position in the stratum-count ordering (Python's stable sort over the
`value_counts` order), not by lexical key order: if two strata have equal
fractional remainders and the later-listed one receives an extra slot,
then so does the earlier-listed one. -/
theorem tie_break_follows_counts_order (df : List Item) (n : Nat)
    (p₁ p₂ : String × ℚ) (hsub : [p₁, p₂].Sublist (exactAllocs df n))
    (hfr : Int.fract p₁.2 = Int.fract p₂.2)
    (hk : p₂.1 ∈ extraKeys df n) :
    p₁.1 ∈ extraKeys df n :=
  extra_stability df n p₁ p₂ hsub hfr hk

theorem tie_break_follows_counts_order_witness :
    ("A | x" : String) ∈ extraKeys dsC6W 3 :=
  tie_break_follows_counts_order dsC6W 3 ("A | x", (3:ℚ)/4) ("B | x", (3:ℚ)/4)
    (by rw [exactAllocs_dsC6W]; exact List.sublist_cons_self _ _)
    rfl
    (by rw [extraKeys_dsC6W]; simp)

/-- C7 (amended): an allocation exceeding a stratum's size is capped at
the stratum's size rather than failing, and the sampler still succeeds;
but the report's sample-size line is printed from the requested `n`, not
from the actual number of sampled items. -/
theorem capped_draw_report_shows_requested (df : List Item) (n seed : Nat)
    (h : df ≠ []) (hn : 0 < n) :
    (stratified_sample df n seed).map List.length = some (cappedSum df n)
      ∧ sampleSizeLine n = "Sample size:   " ++ toString n ++ " problems" := by
  refine ⟨?_, rfl⟩
  have hs := stratified_sample_isSome df n seed h hn
  rcases Option.isSome_iff_exists.1 hs with ⟨l, hl⟩
  rw [hl]
  show some l.length = some (cappedSum df n)
  rw [stratified_sample_length df n seed l hl]

theorem capped_draw_report_shows_requested_witness :
    (stratified_sample dsB 5 0).map List.length = some (cappedSum dsB 5)
      ∧ sampleSizeLine 5 = "Sample size:   " ++ toString 5 ++ " problems" :=
  capped_draw_report_shows_requested dsB 5 0 (by decide) (by decide)

/-- C7 counterexample: asking 5 items of a 2-item stratum yields 2
items, yet the report's sample-size line for the run states the
requested 5, not the actual 2. -/
theorem shortfall_absent_from_report :
    (stratified_sample dsB 5 0).map List.length = some 2
      ∧ (2 : Nat) ≠ 5
      ∧ sampleSizeLine 5 ≠ sampleSizeLine 2 := by
  refine ⟨?_, by decide, by decide⟩
  rw [sample_dsB]
  rfl

/-- C8: no item identifier appears twice in the returned sample — if the
dataset's identifiers are distinct, so are the identifiers of the items
of any sample the sampler returns, for every `(dataset, N, seed)`. -/
theorem sample_has_no_duplicate_ids (df : List Item) (n seed : Nat)
    (l : List Item) (hnd : (df.map Item.instance_id).Nodup)
    (h : stratified_sample df n seed = some l) :
    (l.map Item.instance_id).Nodup :=
  stratified_sample_nodup_ids df n seed l hnd h

theorem sample_has_no_duplicate_ids_witness :
    (([mkItem "x1" "A" "x", mkItem "x2" "A" "x"]).map Item.instance_id).Nodup :=
  sample_has_no_duplicate_ids dsB 5 0 _ (by decide) sample_dsB

/-- C9 counterexample: the separator `" | "` can occur inside a label:
the distinct non-empty label pairs `("a", "| x")` and `("a |", "x")`
produce the same stratum key, so the key map is not injective on all
non-empty label pairs. -/
theorem stratumKey_collision :
    stratumKey "a" "| x" = stratumKey "a |" "x"
      ∧ ("a" : String) ≠ "a |"
      ∧ ("a" : String) ≠ "" ∧ ("| x" : String) ≠ ""
      ∧ ("a |" : String) ≠ "" ∧ ("x" : String) ≠ "" := by
  refine ⟨by decide, by decide, by decide, by decide, by decide, by decide⟩

/-- C9 (amended): the stratum key is injective over non-empty label
pairs whose source-group labels do not contain the `'|'` character: two
such pairs map to the same key iff both labels match exactly. -/
theorem stratumKey_injective_no_pipe (r₁ d₁ r₂ d₂ : String)
    (h₁ : r₁ ≠ "") (h₂ : d₁ ≠ "") (h₃ : r₂ ≠ "") (h₄ : d₂ ≠ "")
    (hp₁ : '|' ∉ r₁.data) (hp₂ : '|' ∉ r₂.data) :
    stratumKey r₁ d₁ = stratumKey r₂ d₂ ↔ (r₁ = r₂ ∧ d₁ = d₂) :=
  stratumKey_inj r₁ d₁ r₂ d₂ hp₁ hp₂

theorem stratumKey_injective_no_pipe_witness :
    stratumKey "a" "easy" = stratumKey "a" "easy"
      ↔ (("a" : String) = "a" ∧ ("easy" : String) = "easy") :=
  stratumKey_injective_no_pipe "a" "easy" "a" "easy"
    (by decide) (by decide) (by decide) (by decide) (by decide) (by decide)

/-- C10: with no explicit difficulty field, an item's difficulty is
derived from the newline count of its patch: strictly fewer than 50
newlines is `"easy"`, 50–149 is `"medium"`, and 150 or more is
`"hard"`. -/
theorem difficulty_thresholds (patch : String) :
    (countNewlines patch < 50 → fallbackDifficulty patch = "easy")
      ∧ (50 ≤ countNewlines patch → countNewlines patch < 150 →
          fallbackDifficulty patch = "medium")
      ∧ (150 ≤ countNewlines patch → fallbackDifficulty patch = "hard") := by
  unfold fallbackDifficulty deriveDifficulty
  refine ⟨?_, ?_, ?_⟩
  · intro h
    rw [if_pos h]
  · intro h1 h2
    rw [if_neg (by omega), if_pos h2]
  · intro h
    rw [if_neg (by omega), if_neg (by omega)]

theorem difficulty_thresholds_witness :
    fallbackDifficulty "" = "easy" :=
  (difficulty_thresholds "").1 (by decide)
